import Mathlib

/-!
Verification development for the SAE-V repository.

We shallowly embed the two source files:

* `src/vit_sae_analysis/dashboard_fns.py` — the batch-streaming top-k
  accumulation pipeline (`get_all_model_activations`, `get_new_top_k`, the
  accumulation loop inside `get_feature_data`).
* `src/saev/app.py` — the serving-time renderer (`add_highlights`) and
  example assembly (`make_sae_activation`).

Conventions of the embedding:

* Real-valued tensor entries are modelled as rationals (`ℚ`); the claims we
  check are order-theoretic and exact-division statements, for which exact
  rationals model float arithmetic faithfully, except for division by zero.
  For the latter we use the small type `FV` below, which mirrors IEEE-754
  behaviour of `x / 0` (NaN / ±infinity), because the spec's claims about a
  never-firing latent are precisely about that behaviour.
* 2-D tensors are lists of rows; operations along `dim=1` act row-wise.
  The parallel `(values, indices)` tensor pair of the top-k table is
  modelled as rows of `(value, index)` pairs, which is exactly the data
  kept in lock-step by `torch.topk` + `torch.gather` in the source.
* `torch.topk(x, k, dim=1)` returns, per row, the `k` largest entries in
  descending order together with their positions; the order among equal
  values is unspecified by torch (and the spec says it must not be relied
  upon).  We model it as a stable descending sort of `(value, position)`
  pairs followed by `take k`, which is one implementation of that contract.
-/

namespace SAEV

/-- Descending comparison on `(value, index)` pairs: compare by value only.
This is the key used by `torch.topk(total_values, k, dim=1)` in
`get_new_top_k` (`dashboard_fns.py:140`), where the subsequent
`torch.gather` carries the index member along. -/
def pairGeB (a b : ℚ × Nat) : Bool := decide (b.1 ≤ a.1)

/-- Descending comparison on plain values. -/
def valGeB (a b : ℚ) : Bool := decide (b ≤ a)

/-- `torch.topk(·, k, dim=1)` on one row of `(value, index)` pairs:
the `k` largest by value, in descending value order, each carrying its
index along. -/
def topkPairs (l : List (ℚ × Nat)) (k : Nat) : List (ℚ × Nat) :=
  (l.mergeSort pairGeB).take k

/-- One row (one latent) of `get_new_top_k` (`dashboard_fns.py:137-142`):
concatenate the two `(value, index)` rows along the rank axis, then
re-select the top `k` by value, gathering the matching indices. -/
def get_new_top_k_row (first second : List (ℚ × Nat)) (k : Nat) :
    List (ℚ × Nat) :=
  topkPairs (first ++ second) k

/-- `get_new_top_k` on whole tables: `torch.cat`/`topk`/`gather` with
`dim=1` act independently on each row (each latent). -/
def get_new_top_k (first second : List (List (ℚ × Nat))) (k : Nat) :
    List (List (ℚ × Nat)) :=
  List.zipWith (fun f s => get_new_top_k_row f s k) first second

/-- Chunk-local `topk(sae_activations, k, dim=1)` on one latent's row of
activations (`dashboard_fns.py:234-236`): indices are positions within the
chunk. -/
def topkRow (vals : List ℚ) (k : Nat) : List (ℚ × Nat) :=
  topkPairs (vals.enum.map (fun p => (p.2, p.1))) k

/-- From the spec's words (`spec.md` §8, claim C1): "sorting the full K+K
union of values descending and taking the first K".  This is the
specification-side definition that the merge is compared against. -/
def specTopKValues (vals : List ℚ) (k : Nat) : List ℚ :=
  (vals.mergeSort valGeB).take k

/-- `get_all_model_activations` (`dashboard_fns.py:27-52`): split `images`
into `len(images) // B` full mini-batches `images[i*B:(i+1)*B]`, plus — if
`len(images) % B > 0` — the final partial batch `images[-remainder:]`; run
the model on each batch and concatenate along `dim=0`.  The per-batch
forward pass produces one activation row per image, modelled by the
per-image function `f`. -/
def get_all_model_activations {α β : Type} (f : α → β) (images : List α)
    (B : Nat) : List β :=
  let nb := images.length / B
  let r := images.length % B
  let full := (List.range nb).map (fun i => ((images.drop (i * B)).take B).map f)
  let all := if 0 < r then full ++ [(images.drop (images.length - r)).map f] else full
  all.flatten

/-- State of the accumulation loop in `get_feature_data`
(`dashboard_fns.py:193-250`): the running top-k table (the parallel
`max_activating_image_values` / `max_activating_image_indices` pair, one
row of `(value, index)` pairs per latent), the running activation sum
`sae_mean_acts`, and the running count of strictly positive activations
`sae_sparsity` (a float tensor in the source, holding whole numbers). -/
structure AccState where
  table : List (List (ℚ × Nat))
  meanSum : List ℚ
  fireCount : List ℚ

/-- The slice of the latent-major activation matrix corresponding to the
dataset slice `dataset[start : start + len]` (`dashboard_fns.py:215-218`):
for each latent, the activations of images `start..start+len`
(truncated at the end of the dataset, as Python slicing is). -/
def chunkRows (acts : List (List ℚ)) (start len : Nat) : List (List ℚ) :=
  acts.map (fun row => (row.drop start).take len)

/-- One iteration of the accumulation loop (`dashboard_fns.py:212-250`):
accumulate the activation sums and positive counts over the whole chunk,
take the chunk-local top-k per latent, shift its indices by the global
offset (`indices += number_of_images_processed`), and merge into the
running table with `get_new_top_k(running, chunk)`. -/
def processChunk (k : Nat) (st : AccState) (chunk : List (List ℚ))
    (off : Nat) : AccState :=
  { table := List.zipWith (fun t c => get_new_top_k_row t c k) st.table
      ((chunk.map (fun row => topkRow row k)).map
        (fun r => r.map (fun p => (p.1, p.2 + off))))
    meanSum := List.zipWith (fun a b => a + b) st.meanSum
      (chunk.map (fun row => row.sum))
    fireCount := List.zipWith (fun a b => a + b) st.fireCount
      (chunk.map (fun row => ((row.countP (fun x => decide (0 < x)) : Nat) : ℚ))) }

/-- Initial accumulator state (`dashboard_fns.py:193-210`): all three
tensors are `torch.zeros`, with `d` latents (`cfg.d_sae`) and `k` ranks. -/
def initState (d k : Nat) : AccState :=
  { table := List.replicate d (List.replicate k ((0 : ℚ), (0 : Nat)))
    meanSum := List.replicate d 0
    fireCount := List.replicate d 0 }

/-- The accumulation loop after `n` iterations: iteration `i` (for
`i = 0, 1, ...`) processes the dataset slice starting at offset `i * B` of
nominal size `B = max_number_of_images_per_iteration`.  `acts` is the
latent-major activation matrix of the (shuffled) dataset: row `l` lists
latent `l`'s activation on each image, which is what the chunked
ViT+SAE forward passes produce chunk by chunk
(`sae_activations.transpose(0, 1)`, `dashboard_fns.py:226-228`). -/
def runLoop (acts : List (List ℚ)) (B k : Nat) : Nat → AccState
  | 0 => initState acts.length k
  | n + 1 => processChunk k (runLoop acts B k n) (chunkRows acts (n * B) B) (n * B)

/-- Number of iterations of `while number_of_images_processed <
number_of_images` when the counter advances by `B` each time
(`dashboard_fns.py:212,250`): `⌈N / B⌉`.  (The `StopIteration` handler in
the source is dead code: Python slicing past the end of a dataset
truncates instead of raising.) -/
def numIterations (N B : Nat) : Nat := (N + B - 1) / B

/-- A float value as far as the claims need it: exact finite rationals
plus the IEEE-754 non-finite outcomes of dividing a finite float by zero.
The spec's division-by-zero claims (C4/C5) are about exactly this
behaviour. -/
inductive FV where
  | nan : FV
  | inf : FV
  | ninf : FV
  | fin : ℚ → FV
deriving DecidableEq

/-- IEEE-754 division of two finite values: `0 / 0` is NaN, `x / 0` for
`x ≠ 0` is a signed infinity, and otherwise the exact quotient (our model
idealizes rounding away, which the claims do not exercise). -/
def fdiv (a b : ℚ) : FV :=
  if b = 0 then (if a = 0 then FV.nan else if 0 < a then FV.inf else FV.ninf)
  else FV.fin (a / b)

/-- `sae_mean_acts /= sae_sparsity` (`dashboard_fns.py:252`): elementwise
division of the accumulated activation sums by the raw positive counts
(this happens before `sae_sparsity` is normalized). -/
def finalMeanActs (st : AccState) : List FV :=
  List.zipWith fdiv st.meanSum st.fireCount

/-- `sae_sparsity /= number_of_images_processed` (`dashboard_fns.py:253`):
the positive counts divided by the final value of the loop counter. -/
def finalSparsity (st : AccState) (total : Nat) : List FV :=
  st.fireCount.map (fun c => fdiv c (total : ℚ))

/-- `tensor[:1000, :10]`: the slice of the top-k tables that
`get_feature_data` hands to `save_highest_activating_images`
(`dashboard_fns.py:287-293`). -/
def sliceForSaving {α : Type} (t : List (List α)) : List (List α) :=
  (t.take 1000).map (fun r => r.take 10)

/-- The outputs of `get_feature_data` (`dashboard_fns.py:145-293`): the
top-k index/value tables, the persisted sparsity and mean-activation
arrays (absent — never defined — on the `load_pretrained` path), and the
table slices passed on to `save_highest_activating_images`. -/
structure FeatureData where
  maxActivatingImageIndices : List (List Nat)
  maxActivatingImageValues : List (List ℚ)
  saeSparsity : Option (List FV)
  saeMeanActs : Option (List FV)
  savedIndices : List (List Nat)
  savedValues : List (List ℚ)

/-- `get_feature_data`: on the `load_pretrained` path
(`dashboard_fns.py:185-191`) the persisted index and value tensors are
loaded and used as-is, and no sparsity / mean-activation statistics are
computed or loaded; otherwise (`dashboard_fns.py:192-285`) the
accumulation loop runs and all four arrays are produced.  Either way the
(sliced) tables are passed to `save_highest_activating_images`
(`dashboard_fns.py:287-293`). -/
def get_feature_data (loadPretrained : Bool)
    (persistedIndices : List (List Nat)) (persistedValues : List (List ℚ))
    (acts : List (List ℚ)) (N B k : Nat) : FeatureData :=
  if loadPretrained then
    { maxActivatingImageIndices := persistedIndices
      maxActivatingImageValues := persistedValues
      saeSparsity := none
      saeMeanActs := none
      savedIndices := sliceForSaving persistedIndices
      savedValues := sliceForSaving persistedValues }
  else
    let n := numIterations N B
    let st := runLoop acts B k n
    let idx := st.table.map (List.map Prod.snd)
    let vals := st.table.map (List.map Prod.fst)
    { maxActivatingImageIndices := idx
      maxActivatingImageValues := vals
      saeSparsity := some (finalSparsity st (n * B))
      saeMeanActs := some (finalMeanActs st)
      savedIndices := sliceForSaving idx
      savedValues := sliceForSaving vals }

/-- The example-gathering loop of `make_sae_activation`
(`app.py:471-485`), tracked at the level of the image indices chosen: walk
`top_img_i` in rank order with a `seen` set; skip an index already seen;
otherwise take it, and stop as soon as the `seen` set has reached 4
entries (the check `len(seen_i_im) >= 4` runs after the add, so the 4th
distinct index is still taken). -/
def gather_examples (seen : List Nat) : List Nat → List Nat
  | [] => []
  | i :: rest =>
    if i ∈ seen then gather_examples seen rest
    else if 4 ≤ seen.length + 1 then [i]
    else i :: gather_examples (i :: seen) rest

/-- The base image handed to `add_highlights`: its pyvips width/height and
an RGB pixel function (row, column ↦ three bands). -/
structure Image where
  width : Nat
  height : Nat
  pix : Nat → Nat → ℚ × ℚ × ℚ

/-- Python `int(·)` on an exact value: truncation toward zero. -/
def pyInt (q : ℚ) : ℤ := if 0 ≤ q then ⌊q⌋ else ⌈q⌉

/-- One per-patch overlay cell (`app.py:357-359`): channel 0 gets
`int(255 * val)` and the alpha channel gets `int(128 * val)` (channels 1
and 2 stay zero), where `val` is the normalized activation. -/
def cellOf (val : ℚ) : ℤ × ℤ := (pyInt (255 * val), pyInt (128 * val))

/-- Writing `overlay[y : y + pw, x : x + pw] = patch` into the overlay
array, viewed as a function from (row, column) to (channel-0, alpha). -/
def writeBlock (f : Nat → Nat → ℤ × ℤ) (y x pw : Nat) (v : ℤ × ℤ) :
    Nat → Nat → ℤ × ℤ :=
  fun r c => if y ≤ r ∧ r < y + pw ∧ x ≤ c ∧ c < x + pw then v else f r c

/-- The overlay-building loop of `add_highlights` (`app.py:348-360`):
start from `np.zeros` and, for patch `idx`, write its cell into the block
at `x = (idx % grid) * pw`, `y = (idx // grid) * pw` (the two patch side
lengths are equal by the assertion at `app.py:345`). -/
def buildOverlay (g pw : Nat) (cells : List (ℤ × ℤ)) : Nat → Nat → ℤ × ℤ :=
  cells.enum.foldl
    (fun f p => writeBlock f ((p.1 / g) * pw) ((p.1 % g) * pw) pw p.2)
    (fun _ _ => (0, 0))

/-- Alpha compositing `overlay over base` for one pixel (`app.py:362`):
the overlay colour is (c, 0, 0) with alpha `a` out of 255. -/
def compositePixel (base : ℚ × ℚ × ℚ) (cell : ℤ × ℤ) : ℚ × ℚ × ℚ :=
  let al : ℚ := (cell.2 : ℚ) / 255
  (al * (cell.1 : ℚ) + (1 - al) * base.1,
   (1 - al) * base.2.1,
   (1 - al) * base.2.2)

/-- `img_v_sized.addalpha().composite(overlay, "over")`: pixelwise alpha
compositing of the overlay over the base image. -/
def compositeOver (img : Image) (overlay : Nat → Nat → ℤ × ℤ) : Image :=
  { width := img.width
    height := img.height
    pix := fun r c => compositePixel (img.pix r c) (overlay r c) }

/-- The epsilon in the normalization `val / (upper + 1e-9)`
(`app.py:351`), idealized as the exact rational it denotes. -/
def highlightEps : ℚ := 1 / 1000000000

/-- `add_highlights` (`app.py:313-362`).  `none` models a fatal error
before an image is returned:

* empty `patches` returns the image unchanged (`app.py:336-337`);
* `assert grid_w * grid_h == len(patches)` with
  `grid_w = grid_h = int(math.sqrt(len(patches)))` (`app.py:340-341`);
* `assert patch_w == patch_h` for the floor-divided patch side lengths
  (`app.py:343-345`);
* `assert upper is not None` fires on the first loop iteration
  (`app.py:350`), so a non-empty call without an upper bound dies;
* if `upper + 1e-9 == 0` the float normalization yields NaN/inf and the
  `int(...)` conversions raise (`app.py:351,358`), modelled as `none`;
* otherwise the overlay is built patch by patch and composited over the
  image. -/
def add_highlights (img : Image) (patches : List ℚ) (upper : Option ℚ) :
    Option Image :=
  if patches.length = 0 then some img
  else
    let g := Nat.sqrt patches.length
    if g * g ≠ patches.length then none
    else
      let pw := img.width / g
      let ph := img.height / g
      if pw ≠ ph then none
      else
        match upper with
        | none => none
        | some u =>
          if u + highlightEps = 0 then none
          else
            let cells := patches.map (fun v => cellOf (v / (u + highlightEps)))
            some (compositeOver img (buildOverlay g pw cells))

/-! ### Helper lemmas about the descending sorts used by `topk` -/

lemma pairGeB_trans (a b c : ℚ × Nat) (h1 : pairGeB a b = true)
    (h2 : pairGeB b c = true) : pairGeB a c = true := by
  simp only [pairGeB, decide_eq_true_eq] at *
  exact le_trans h2 h1

lemma pairGeB_total (a b : ℚ × Nat) : (pairGeB a b || pairGeB b a) = true := by
  simp only [pairGeB, Bool.or_eq_true, decide_eq_true_eq]
  exact le_total b.1 a.1

lemma valGeB_trans (a b c : ℚ) (h1 : valGeB a b = true)
    (h2 : valGeB b c = true) : valGeB a c = true := by
  simp only [valGeB, decide_eq_true_eq] at *
  exact le_trans h2 h1

lemma valGeB_total (a b : ℚ) : (valGeB a b || valGeB b a) = true := by
  simp only [valGeB, Bool.or_eq_true, decide_eq_true_eq]
  exact le_total b a

lemma pairwise_mergeSort_pairGeB (l : List (ℚ × Nat)) :
    (l.mergeSort pairGeB).Pairwise (fun a b => b.1 ≤ a.1) :=
  (List.sorted_mergeSort pairGeB_trans pairGeB_total l).imp
    (fun hab => by simpa [pairGeB] using hab)

lemma pairwise_mergeSort_valGeB (l : List ℚ) :
    (l.mergeSort valGeB).Pairwise (fun a b => b ≤ a) :=
  (List.sorted_mergeSort valGeB_trans valGeB_total l).imp
    (fun hab => by simpa [valGeB] using hab)

lemma pairwise_topkPairs (l : List (ℚ × Nat)) (k : Nat) :
    (topkPairs l k).Pairwise (fun a b => b.1 ≤ a.1) :=
  (pairwise_mergeSort_pairGeB l).sublist (List.take_sublist k _)

lemma pairwise_get_new_top_k_row (first second : List (ℚ × Nat)) (k : Nat) :
    (get_new_top_k_row first second k).Pairwise (fun a b => b.1 ≤ a.1) :=
  pairwise_topkPairs (first ++ second) k

/-- Sorting `(value, index)` pairs by value descending and projecting the
values is the same as sorting the projected values descending. -/
lemma mapFst_mergeSort (l : List (ℚ × Nat)) :
    (l.mergeSort pairGeB).map Prod.fst = (l.map Prod.fst).mergeSort valGeB := by
  haveI : IsAntisymm ℚ (fun a b : ℚ => b ≤ a) := ⟨fun a b ha hb => le_antisymm hb ha⟩
  refine List.eq_of_perm_of_sorted (r := fun a b : ℚ => b ≤ a) ?_ ?_ ?_
  · exact ((List.mergeSort_perm l pairGeB).map Prod.fst).trans
      (List.mergeSort_perm (l.map Prod.fst) valGeB).symm
  · exact List.pairwise_map.mpr (pairwise_mergeSort_pairGeB l)
  · exact pairwise_mergeSort_valGeB (l.map Prod.fst)

/-! ### Claims C1 and C2 -/

/-- C1: merging two top-k tables of `k` columns each with `get_new_top_k`
(concatenate values and indices along the rank axis, re-select the `k`
largest by value) yields, per latent row, the same multiset of top-k
values as sorting the full `k + k` union of values descending and taking
the first `k`. -/
theorem merge_topk_values_match_sorted_union (first second : List (ℚ × Nat))
    (k : Nat) (h1 : first.length = k) (h2 : second.length = k) :
    (((get_new_top_k_row first second k).map Prod.fst : List ℚ) : Multiset ℚ)
      = ((specTopKValues ((first ++ second).map Prod.fst) k : List ℚ) : Multiset ℚ) := by
  have hl : (get_new_top_k_row first second k).map Prod.fst
      = specTopKValues ((first ++ second).map Prod.fst) k := by
    unfold get_new_top_k_row topkPairs specTopKValues
    rw [List.map_take, mapFst_mergeSort]
  rw [hl]

/-- Witness for C1 at a concrete pair of 2-column tables. -/
theorem merge_topk_values_match_sorted_union_witness :
    ([((3:ℚ), (0:Nat)), (1, 1)].length = 2 ∧ [((2:ℚ), (5:Nat)), (5, 7)].length = 2)
      ∧ (((get_new_top_k_row [((3:ℚ), (0:Nat)), (1, 1)] [(2, 5), (5, 7)] 2).map Prod.fst : List ℚ) : Multiset ℚ)
        = ((specTopKValues (([((3:ℚ), (0:Nat)), (1, 1)] ++ [(2, 5), (5, 7)]).map Prod.fst) 2 : List ℚ) : Multiset ℚ) :=
  ⟨⟨rfl, rfl⟩, merge_topk_values_match_sorted_union _ _ 2 rfl rfl⟩

/-- Every row of the accumulated top-k table is sorted descending by
value, after any number of loop iterations. -/
lemma runLoop_table_row_sorted (acts : List (List ℚ)) (B k : Nat) :
    ∀ n, ∀ row ∈ (runLoop acts B k n).table,
      row.Pairwise (fun a b : ℚ × Nat => b.1 ≤ a.1) := by
  intro n
  induction n with
  | zero =>
    intro row hrow
    simp only [runLoop, initState] at hrow
    rw [List.eq_of_mem_replicate hrow]
    exact (List.pairwise_replicate).mpr (Or.inr (le_refl _))
  | succ m ih =>
    intro row hrow
    simp only [runLoop, processChunk] at hrow
    obtain ⟨i, hi, hrow⟩ := List.mem_iff_getElem.mp hrow
    rw [List.getElem_zipWith] at hrow
    rw [← hrow]
    exact pairwise_get_new_top_k_row _ _ k

/-- C2: the descending-order invariant of the top-k value table.  The
output of every `get_new_top_k` merge step has its per-latent value row
sorted descending, and at every stage of the accumulation pipeline
(initialized to zeros, updated only by merges) every row of the table
satisfies `values[L, r1] ≥ values[L, r2]` for ranks `r1 < r2`. -/
theorem topk_table_rows_sorted_descending
    (first second : List (ℚ × Nat)) (km : Nat)
    (acts : List (List ℚ)) (B k n : Nat)
    (row : List (ℚ × Nat)) (hrow : row ∈ (runLoop acts B k n).table)
    (i j : Nat) (hj : j < row.length) (hij : i < j) :
    (get_new_top_k_row first second km).Pairwise (fun a b : ℚ × Nat => b.1 ≤ a.1)
      ∧ (row.get ⟨j, hj⟩).1 ≤ (row.get ⟨i, hij.trans hj⟩).1 := by
  refine ⟨pairwise_get_new_top_k_row first second km, ?_⟩
  have hs := runLoop_table_row_sorted acts B k n row hrow
  exact (List.pairwise_iff_get.mp hs) ⟨i, hij.trans hj⟩ ⟨j, hj⟩ hij

/-- Witness for C2 on a concrete pipeline state. -/
theorem topk_table_rows_sorted_descending_witness :
    ([((0:ℚ), (0:Nat)), (0, 0)] ∈ (runLoop [[(1:ℚ)]] 1 2 0).table)
      ∧ (([((0:ℚ), (0:Nat)), (0, 0)].get ⟨1, by decide⟩).1
          ≤ ([((0:ℚ), (0:Nat)), (0, 0)].get ⟨0, by decide⟩).1) :=
  ⟨by decide,
   (topk_table_rows_sorted_descending [] [] 0 [[(1:ℚ)]] 1 2 0 _ (by decide) 0 1
     (by decide) (by decide)).2⟩

/-! ### Claim C3: chunking conservation -/

/-- Concatenating the `n` consecutive size-`B` chunks of a list recovers
its first `n * B` elements. -/
lemma flatten_range_chunks {α : Type} (l : List α) (B : Nat) :
    ∀ n, ((List.range n).map (fun i => (l.drop (i * B)).take B)).flatten
      = l.take (n * B) := by
  intro n
  induction n with
  | zero => simp
  | succ m ih =>
    rw [List.range_succ, List.map_append, List.flatten_append]
    simp only [List.map_cons, List.map_nil, List.flatten_cons, List.flatten_nil,
      List.append_nil]
    rw [ih, Nat.succ_mul, List.take_add]

/-- C3: when the batch size `B` does not divide the number of images, the
batched forward-pass driver still processes every image exactly once: the
final partial batch is included, and the concatenated activation output is
the image list mapped through the per-image model, in dataset order (hence
exactly `N` rows). -/
theorem chunked_forward_pass_processes_every_image {α β : Type} (f : α → β)
    (images : List α) (B : Nat) (hB : 0 < B) (hnd : ¬ B ∣ images.length) :
    get_all_model_activations f images B = images.map f := by
  have hr : 0 < images.length % B :=
    Nat.pos_of_ne_zero (fun h => hnd (Nat.dvd_of_mod_eq_zero h))
  unfold get_all_model_activations
  simp only [if_pos hr]
  rw [List.flatten_append]
  have hchunk : ∀ i : Nat, ((images.drop (i * B)).take B).map f
      = ((images.map f).drop (i * B)).take B := by
    intro i; rw [List.map_take, List.map_drop]
  simp only [hchunk]
  rw [flatten_range_chunks (images.map f) B (images.length / B)]
  simp only [List.flatten_cons, List.flatten_nil, List.append_nil]
  rw [List.map_drop]
  have hlen : images.length / B * B = images.length - images.length % B := by
    have h := Nat.div_add_mod images.length B
    rw [Nat.mul_comm B (images.length / B)] at h
    omega
  rw [hlen]
  exact List.take_append_drop _ _

/-- Witness for C3: seven images in batches of three leave a partial batch
of one, and all seven rows come out in order. -/
theorem chunked_forward_pass_processes_every_image_witness :
    (0 < 3 ∧ ¬ (3 ∣ [10, 20, 30, 40, 50, 60, 70].length))
      ∧ get_all_model_activations (fun x : Nat => x + 1)
          [10, 20, 30, 40, 50, 60, 70] 3
        = [10, 20, 30, 40, 50, 60, 70].map (fun x : Nat => x + 1) :=
  ⟨⟨by decide, by decide⟩,
   chunked_forward_pass_processes_every_image _ _ 3 (by decide) (by decide)⟩

/-! ### Characterizing the accumulator state after `n` iterations -/

lemma zipWith_map_same {α β γ δ : Type} (g : β → γ → δ) (f1 : α → β)
    (f2 : α → γ) : ∀ l : List α,
    List.zipWith g (l.map f1) (l.map f2) = l.map (fun x => g (f1 x) (f2 x))
  | [] => rfl
  | x :: xs => by
    simp only [List.map_cons, List.zipWith_cons_cons,
      zipWith_map_same g f1 f2 xs]

/-- After `n` iterations, `sae_mean_acts` holds, per latent, the sum of
that latent's activations over the first `n * B` images. -/
lemma runLoop_meanSum (acts : List (List ℚ)) (B k : Nat) :
    ∀ n, (runLoop acts B k n).meanSum
      = acts.map (fun row => (row.take (n * B)).sum) := by
  intro n
  induction n with
  | zero =>
    simp only [runLoop, initState, Nat.zero_mul, List.take_zero, List.sum_nil]
    exact (List.map_const' acts 0).symm
  | succ m ih =>
    simp only [runLoop, processChunk, ih, chunkRows, List.map_map]
    rw [zipWith_map_same]
    have hfun : (fun row : List ℚ =>
          (row.take (m * B)).sum + (((row.drop (m * B)).take B)).sum)
        = fun row : List ℚ => (row.take ((m + 1) * B)).sum := by
      funext row
      rw [Nat.succ_mul, List.take_add, List.sum_append]
    simpa using congrArg acts.map hfun

/-- After `n` iterations, `sae_sparsity` holds, per latent, the number of
the first `n * B` images on which that latent's activation is strictly
positive. -/
lemma runLoop_fireCount (acts : List (List ℚ)) (B k : Nat) :
    ∀ n, (runLoop acts B k n).fireCount
      = acts.map (fun row =>
          (((row.take (n * B)).countP (fun x => decide (0 < x)) : Nat) : ℚ)) := by
  intro n
  induction n with
  | zero =>
    simp only [runLoop, initState, Nat.zero_mul, List.take_zero,
      List.countP_nil, Nat.cast_zero]
    exact (List.map_const' acts 0).symm
  | succ m ih =>
    simp only [runLoop, processChunk, ih, chunkRows, List.map_map]
    rw [zipWith_map_same]
    have hfun : (fun row : List ℚ =>
          (((row.take (m * B)).countP (fun x => decide (0 < x)) : Nat) : ℚ)
            + (((row.drop (m * B)).take B).countP (fun x => decide (0 < x)) : Nat))
        = fun row : List ℚ =>
          (((row.take ((m + 1) * B)).countP (fun x => decide (0 < x)) : Nat) : ℚ) := by
      funext row
      rw [Nat.succ_mul, List.take_add, List.countP_append, Nat.cast_add]
    simpa using congrArg acts.map hfun

lemma runLoop_table_length (acts : List (List ℚ)) (B k : Nat) :
    ∀ n, (runLoop acts B k n).table.length = acts.length := by
  intro n
  induction n with
  | zero => simp [runLoop, initState]
  | succ m ih =>
    simp [runLoop, processChunk, List.length_zipWith, ih, chunkRows]

lemma finalMeanActs_runLoop (acts : List (List ℚ)) (B k n : Nat) :
    finalMeanActs (runLoop acts B k n)
      = acts.map (fun row => fdiv (row.take (n * B)).sum
          (((row.take (n * B)).countP (fun x => decide (0 < x)) : Nat) : ℚ)) := by
  unfold finalMeanActs
  rw [runLoop_meanSum, runLoop_fireCount, zipWith_map_same]

lemma finalSparsity_runLoop (acts : List (List ℚ)) (B k n total : Nat) :
    finalSparsity (runLoop acts B k n) total
      = acts.map (fun row =>
          fdiv (((row.take (n * B)).countP (fun x => decide (0 < x)) : Nat) : ℚ)
            (total : ℚ)) := by
  unfold finalSparsity
  rw [runLoop_fireCount, List.map_map]
  rfl

lemma getD_map_of_lt {α β : Type} (f : α → β) (l : List α) (i : Nat)
    (h : i < l.length) (d : β) (e : α) :
    (l.map f).getD i d = f (l.getD i e) := by
  rw [List.getD_eq_getElem?_getD, List.getD_eq_getElem?_getD, List.getElem?_map,
    List.getElem?_eq_getElem h]
  rfl

lemma numIterations_pos (N B : Nat) (hB : 0 < B) (hN : 0 < N) :
    0 < numIterations N B := by
  unfold numIterations
  have h : (1 : Nat) ≤ (N + B - 1) / B := by
    rw [Nat.le_div_iff_mul_le hB]
    omega
  omega

/-! ### Claims C4, C5, C9 -/

/-- C4 counterexample: a dataset-exhaustion run.  One latent, a dataset of
a single image with activation `1`, `number_of_images = 2` and chunk size
`B = 2`: the single loop iteration fetches `dataset[0:2]`, which Python
slicing truncates to the one available image, so exactly 1 image is
processed (and it fires), but the loop counter still advances to 2
(`dashboard_fns.py:250`).  The persisted sparsity is `1 / 2`
(`dashboard_fns.py:253`), not the claim's firing-count divided by images
actually processed, `1 / 1`. -/
theorem full_run_sparsity_counterexample :
    ((get_feature_data false [] [] [[(1:ℚ)]] 2 2 1).saeSparsity.getD []).getD 0 FV.nan
        = FV.fin (1 / 2)
      ∧ ((get_feature_data false [] [] [[(1:ℚ)]] 2 2 1).saeSparsity.getD []).getD 0 FV.nan
        ≠ FV.fin (((([[(1:ℚ)]].getD 0 []).countP (fun x => decide (0 < x)) : Nat) : ℚ)
            / (([[(1:ℚ)]].getD 0 []).length : ℚ)) := by
  have h2 : (get_feature_data false [] [] [[(1:ℚ)]] 2 2 1).saeSparsity
      = some (finalSparsity (runLoop [[(1:ℚ)]] 2 1 (numIterations 2 2))
          (numIterations 2 2 * 2)) := rfl
  have hval : ((get_feature_data false [] [] [[(1:ℚ)]] 2 2 1).saeSparsity.getD []).getD 0 FV.nan
      = FV.fin (1 / 2) := by
    rw [h2, Option.getD_some, finalSparsity_runLoop,
      getD_map_of_lt _ _ _ (by decide) _ []]
    have hcnt : (([[(1:ℚ)]].getD 0 []).take (numIterations 2 2 * 2)).countP
        (fun x => decide (0 < x)) = 1 := by decide
    have htot : numIterations 2 2 * 2 = 2 := by decide
    rw [hcnt, htot, fdiv, if_neg (by norm_num)]
    norm_num
  refine ⟨hval, ?_⟩
  rw [hval]
  have hc2 : ([[(1:ℚ)]].getD 0 []).countP (fun x => decide (0 < x)) = 1 := by decide
  have hl2 : ([[(1:ℚ)]].getD 0 []).length = 1 := by decide
  rw [hc2, hl2]
  norm_num

/-- C4 as amended: after a full non-resumed accumulation run, the
persisted per-latent sparsity equals the count of processed images on
which the latent fires strictly positively divided by the **final loop
counter** `⌈N / B⌉ * B` — which equals the number of images actually
processed only when the dataset supplies every requested chunk in full,
and exceeds it when the dataset is exhausted early — and the persisted
mean activation equals the accumulated activation sum divided by that same
firing count (the source divides the sums by the raw counts before
normalizing the counts, `dashboard_fns.py:252-253`).  The `take` below
truncates like Python slicing, so the sum and the firing count do range
over exactly the images actually processed. -/
theorem full_run_sparsity_and_mean_amended
    (pI : List (List Nat)) (pV : List (List ℚ)) (acts : List (List ℚ))
    (N B k l : Nat)
    (hB : 0 < B) (hN : 0 < N) (hl : l < acts.length)
    (hfire : 0 < ((acts.getD l []).take (numIterations N B * B)).countP
      (fun x => decide (0 < x))) :
    ((get_feature_data false pI pV acts N B k).saeMeanActs.getD []).getD l FV.nan
        = FV.fin (((acts.getD l []).take (numIterations N B * B)).sum
            / ((((acts.getD l []).take (numIterations N B * B)).countP
                (fun x => decide (0 < x)) : Nat) : ℚ))
      ∧ ((get_feature_data false pI pV acts N B k).saeSparsity.getD []).getD l FV.nan
        = FV.fin (((((acts.getD l []).take (numIterations N B * B)).countP
            (fun x => decide (0 < x)) : Nat) : ℚ)
              / ((numIterations N B * B : Nat) : ℚ)) := by
  have h1 : (get_feature_data false pI pV acts N B k).saeMeanActs
      = some (finalMeanActs (runLoop acts B k (numIterations N B))) := rfl
  have h2 : (get_feature_data false pI pV acts N B k).saeSparsity
      = some (finalSparsity (runLoop acts B k (numIterations N B))
          (numIterations N B * B)) := rfl
  rw [h1, h2, Option.getD_some, Option.getD_some, finalMeanActs_runLoop,
    finalSparsity_runLoop, getD_map_of_lt _ _ _ hl _ [],
    getD_map_of_lt _ _ _ hl _ []]
  constructor
  · rw [fdiv, if_neg]
    exact Nat.cast_ne_zero.mpr (Nat.pos_iff_ne_zero.mp hfire)
  · rw [fdiv, if_neg]
    have htot : 0 < numIterations N B * B :=
      Nat.mul_pos (numIterations_pos N B hB hN) hB
    exact Nat.cast_ne_zero.mpr (Nat.pos_iff_ne_zero.mp htot)

/-- Witness for C4's amended theorem: two images in chunks of one, a
single latent firing on both. -/
theorem full_run_sparsity_and_mean_amended_witness :
    ((0:Nat) < 1 ∧ (0:Nat) < 2 ∧ (0:Nat) < [[(1:ℚ), 2]].length
        ∧ 0 < (([[(1:ℚ), 2]].getD 0 []).take (numIterations 2 1 * 1)).countP
            (fun x => decide (0 < x)))
      ∧ ((get_feature_data false [] [] [[(1:ℚ), 2]] 2 1 1).saeMeanActs.getD []).getD 0 FV.nan
        = FV.fin ((([[(1:ℚ), 2]].getD 0 []).take (numIterations 2 1 * 1)).sum
            / (((([[(1:ℚ), 2]].getD 0 []).take (numIterations 2 1 * 1)).countP
                (fun x => decide (0 < x)) : Nat) : ℚ)) :=
  ⟨⟨by decide, by decide, by decide, by decide⟩,
   (full_run_sparsity_and_mean_amended [] [] [[(1:ℚ), 2]] 2 1 1 0
     (by decide) (by decide) (by decide) (by decide)).1⟩

/-- C5: a latent that never fires (its positive count over the processed
images is zero, and SAE activations are nonnegative, being post-ReLU) gets
a mean activation of `0 / 0 = NaN` — a detectable value, not a crash — and
a sparsity of exactly `0`; the rest of the outputs are still produced (the
value table still has one row per latent). -/
theorem dead_latent_mean_is_nan
    (pI : List (List Nat)) (pV : List (List ℚ)) (acts : List (List ℚ))
    (N B k l : Nat)
    (hB : 0 < B) (hN : 0 < N) (hl : l < acts.length)
    (hnn : ∀ x ∈ (acts.getD l []).take (numIterations N B * B), 0 ≤ x)
    (hdead : ((acts.getD l []).take (numIterations N B * B)).countP
      (fun x => decide (0 < x)) = 0) :
    ((get_feature_data false pI pV acts N B k).saeMeanActs.getD []).getD l FV.nan
        = FV.nan
      ∧ ((get_feature_data false pI pV acts N B k).saeSparsity.getD []).getD l FV.nan
        = FV.fin 0
      ∧ (get_feature_data false pI pV acts N B k).maxActivatingImageValues.length
        = acts.length := by
  have h1 : (get_feature_data false pI pV acts N B k).saeMeanActs
      = some (finalMeanActs (runLoop acts B k (numIterations N B))) := rfl
  have h2 : (get_feature_data false pI pV acts N B k).saeSparsity
      = some (finalSparsity (runLoop acts B k (numIterations N B))
          (numIterations N B * B)) := rfl
  have h3 : (get_feature_data false pI pV acts N B k).maxActivatingImageValues
      = (runLoop acts B k (numIterations N B)).table.map (List.map Prod.fst) := rfl
  have hzero : ∀ x ∈ (acts.getD l []).take (numIterations N B * B), x = 0 := by
    intro x hx
    have hnp := List.countP_eq_zero.mp hdead x hx
    simp only [decide_eq_true_eq] at hnp
    exact le_antisymm (not_lt.mp hnp) (hnn x hx)
  have hsum : ((acts.getD l []).take (numIterations N B * B)).sum = 0 :=
    List.sum_eq_zero hzero
  refine ⟨?_, ?_, ?_⟩
  · rw [h1, Option.getD_some, finalMeanActs_runLoop,
      getD_map_of_lt _ _ _ hl _ [], hsum, hdead]
    rfl
  · rw [h2, Option.getD_some, finalSparsity_runLoop,
      getD_map_of_lt _ _ _ hl _ [], hdead]
    have htot : 0 < numIterations N B * B :=
      Nat.mul_pos (numIterations_pos N B hB hN) hB
    rw [Nat.cast_zero, fdiv, if_neg (Nat.cast_ne_zero.mpr (Nat.pos_iff_ne_zero.mp htot))]
    rw [zero_div]
  · rw [h3, List.length_map, runLoop_table_length]

/-- Witness for C5: one latent, two images, activation zero on both. -/
theorem dead_latent_mean_is_nan_witness :
    ((0:Nat) < 1 ∧ (0:Nat) < 2 ∧ (0:Nat) < [[(0:ℚ), 0]].length
        ∧ (∀ x ∈ ([[(0:ℚ), 0]].getD 0 []).take (numIterations 2 1 * 1), 0 ≤ x)
        ∧ (([[(0:ℚ), 0]].getD 0 []).take (numIterations 2 1 * 1)).countP
            (fun x => decide (0 < x)) = 0)
      ∧ ((get_feature_data false [] [] [[(0:ℚ), 0]] 2 1 1).saeMeanActs.getD []).getD 0 FV.nan
        = FV.nan :=
  ⟨⟨by decide, by decide, by decide, by decide, by decide⟩,
   (dead_latent_mean_is_nan [] [] [[(0:ℚ), 0]] 2 1 1 0
     (by decide) (by decide) (by decide) (by decide) (by decide)).1⟩

/-- C9: on the resume ("load pretrained") path, `get_feature_data` loads
only the persisted top-k index and value tensors and uses them unchanged
(up to the `[:1000, :10]` slice) for the subsequent image saving; the
per-latent mean-activation and sparsity statistics are neither reloaded
nor recomputed — they remain absent. -/
theorem resume_path_loads_topk_only (pI : List (List Nat))
    (pV : List (List ℚ)) (acts : List (List ℚ)) (N B k : Nat) :
    get_feature_data true pI pV acts N B k
      = { maxActivatingImageIndices := pI
          maxActivatingImageValues := pV
          saeSparsity := none
          saeMeanActs := none
          savedIndices := sliceForSaving pI
          savedValues := sliceForSaving pV } := rfl

/-! ### Claim C6: example assembly -/

/-- Invariant of the example-gathering loop, for any `seen` set with fewer
than 4 entries: the gathered indices are distinct, appear in rank order,
avoid `seen`, number `min(#distinct new indices, 4 - #seen)`, and — when
the budget is not exhausted — are exactly the new indices of `tops`. -/
lemma gather_examples_spec :
    ∀ (tops seen : List Nat), seen.length < 4 →
      (gather_examples seen tops).Nodup
      ∧ (gather_examples seen tops).Sublist tops
      ∧ (∀ j ∈ gather_examples seen tops, j ∉ seen)
      ∧ (gather_examples seen tops).length
          = min (tops.filter (fun i => decide (i ∉ seen))).toFinset.card
              (4 - seen.length)
      ∧ (seen.length + (tops.filter (fun i => decide (i ∉ seen))).toFinset.card < 4 →
          ∀ j, j ∈ gather_examples seen tops ↔ (j ∈ tops ∧ j ∉ seen)) := by
  intro tops
  induction tops with
  | nil =>
    intro seen hs
    simp [gather_examples]
  | cons i rest ih =>
    intro seen hs
    by_cases hmem : i ∈ seen
    · have hg : gather_examples seen (i :: rest) = gather_examples seen rest := by
        simp [gather_examples, hmem]
      have hfl : (i :: rest).filter (fun j => decide (j ∉ seen))
          = rest.filter (fun j => decide (j ∉ seen)) := by
        simp [List.filter_cons, hmem]
      obtain ⟨hnd, hsub, hnotseen, hlen, hmemiff⟩ := ih seen hs
      rw [hg, hfl]
      refine ⟨hnd, hsub.cons i, hnotseen, hlen, ?_⟩
      intro hlt j
      rw [hmemiff hlt j]
      constructor
      · rintro ⟨hj, hjs⟩
        exact ⟨List.mem_cons_of_mem i hj, hjs⟩
      · rintro ⟨hj, hjs⟩
        rcases List.mem_cons.mp hj with rfl | hj
        · exact absurd hmem hjs
        · exact ⟨hj, hjs⟩
    · by_cases h4 : 4 ≤ seen.length + 1
      · have hg : gather_examples seen (i :: rest) = [i] := by
          simp [gather_examples, hmem, h4]
        have hs3 : seen.length = 3 := by omega
        have hcard : 1 ≤ ((i :: rest).filter (fun j => decide (j ∉ seen))).toFinset.card := by
          have hin : i ∈ ((i :: rest).filter (fun j => decide (j ∉ seen))).toFinset := by
            simp [List.mem_filter, hmem]
          exact Finset.card_pos.mpr ⟨i, hin⟩
        rw [hg]
        refine ⟨by simp, (List.nil_sublist rest).cons₂ i, ?_, ?_, ?_⟩
        · intro j hj
          rw [List.mem_singleton] at hj
          subst hj
          exact hmem
        · simp only [List.length_singleton]
          omega
        · intro hlt
          exact absurd hlt (by omega)
      · have hg : gather_examples seen (i :: rest)
            = i :: gather_examples (i :: seen) rest := by
          simp [gather_examples, hmem, h4]
        have hs' : (i :: seen).length < 4 := by
          simp only [List.length_cons]
          omega
        obtain ⟨hnd, hsub, hnotseen, hlen, hmemiff⟩ := ih (i :: seen) hs'
        have hT : (rest.filter (fun j => decide (j ∉ i :: seen))).toFinset
            = ((rest.filter (fun j => decide (j ∉ seen))).toFinset).erase i := by
          ext j
          simp only [List.mem_toFinset, List.mem_filter, Finset.mem_erase,
            List.mem_cons, decide_eq_true_eq]
          tauto
        have hS : ((i :: rest).filter (fun j => decide (j ∉ seen))).toFinset
            = insert i ((rest.filter (fun j => decide (j ∉ seen))).toFinset) := by
          simp [List.filter_cons, hmem]
        have hcard : (insert i ((rest.filter (fun j => decide (j ∉ seen))).toFinset)).card
            = (((rest.filter (fun j => decide (j ∉ seen))).toFinset).erase i).card + 1 := by
          by_cases hiT : i ∈ (rest.filter (fun j => decide (j ∉ seen))).toFinset
          · rw [Finset.insert_eq_self.mpr hiT, ← Finset.card_erase_add_one hiT]
          · rw [Finset.card_insert_of_not_mem hiT, Finset.erase_eq_of_not_mem hiT]
        rw [hg, hS]
        rw [hT] at hlen hmemiff
        simp only [List.length_cons] at hlen hmemiff hs'
        refine ⟨?_, hsub.cons₂ i, ?_, ?_, ?_⟩
        · rw [List.nodup_cons]
          exact ⟨fun hi => (hnotseen i hi) (List.mem_cons_self i seen), hnd⟩
        · intro j hj
          rcases List.mem_cons.mp hj with rfl | hj
          · exact hmem
          · exact fun hjs => (hnotseen j hj) (List.mem_cons_of_mem i hjs)
        · simp only [List.length_cons]
          omega
        · intro hlt j
          have hlt' : seen.length + 1
              + (((rest.filter (fun j => decide (j ∉ seen))).toFinset).erase i).card < 4 := by
            omega
          have hiff := hmemiff hlt' j
          constructor
          · intro hj
            rcases List.mem_cons.mp hj with rfl | hj
            · exact ⟨List.mem_cons_self j rest, hmem⟩
            · obtain ⟨hjr, hjs⟩ := hiff.mp hj
              exact ⟨List.mem_cons_of_mem i hjr,
                fun hc => hjs (List.mem_cons_of_mem i hc)⟩
          · rintro ⟨hj, hjs⟩
            rcases List.mem_cons.mp hj with rfl | hj
            · exact List.mem_cons_self j _
            · by_cases hji : j = i
              · subst hji
                exact List.mem_cons_self j _
              · refine List.mem_cons_of_mem i (hiff.mpr ⟨hj, ?_⟩)
                simp [List.mem_cons, hji, hjs]

/-- C6: for a latent whose top-k list has fewer than 4 distinct image
indices, example assembly returns exactly one example per distinct index
(hence fewer than 4), skipping ranks whose index was already used, without
padding and without failing; with 4 or more distinct indices it returns
exactly 4, taken in rank order. -/
theorem example_assembly_distinct_images (tops : List Nat) :
    (tops.toFinset.card < 4 →
        (gather_examples [] tops).Nodup
        ∧ (∀ i, i ∈ gather_examples [] tops ↔ i ∈ tops)
        ∧ (gather_examples [] tops).length = tops.toFinset.card
        ∧ (gather_examples [] tops).length < 4)
      ∧ (4 ≤ tops.toFinset.card →
          (gather_examples [] tops).length = 4
          ∧ (gather_examples [] tops).Nodup
          ∧ (gather_examples [] tops).Sublist tops) := by
  obtain ⟨hnd, hsub, -, hlen, hmemiff⟩ := gather_examples_spec tops [] (by decide)
  have hfl : tops.filter (fun i => decide (i ∉ ([] : List Nat))) = tops := by
    simp
  rw [hfl] at hlen hmemiff
  simp only [List.length_nil, Nat.zero_add, Nat.sub_zero] at hlen hmemiff
  constructor
  · intro hc
    refine ⟨hnd, ?_, ?_, ?_⟩
    · intro i
      rw [hmemiff hc i]
      simp
    · omega
    · omega
  · intro hc
    exact ⟨by omega, hnd, hsub⟩

/-- Witness for C6: a top-k list with two distinct indices among three
ranks yields one example per distinct index. -/
theorem example_assembly_distinct_images_witness :
    ([5, 5, 9] : List Nat).toFinset.card < 4
      ∧ (∀ i, i ∈ gather_examples [] [5, 5, 9] ↔ i ∈ ([5, 5, 9] : List Nat))
      ∧ (gather_examples [] [5, 5, 9]).length < 4 :=
  ⟨by decide,
   ((example_assembly_distinct_images [5, 5, 9]).1 (by decide)).2.1,
   ((example_assembly_distinct_images [5, 5, 9]).1 (by decide)).2.2.2⟩

/-! ### Claims C7, C8, C10: the highlight renderer -/

lemma foldl_writeBlock_zero :
    ∀ (l : List (Nat × (ℤ × ℤ))) (g pw : Nat) (f0 : Nat → Nat → ℤ × ℤ),
      (∀ r c, f0 r c = (0, 0)) → (∀ p ∈ l, p.2 = ((0:ℤ), (0:ℤ))) →
      ∀ r c, (l.foldl
        (fun f p => writeBlock f ((p.1 / g) * pw) ((p.1 % g) * pw) pw p.2) f0) r c
          = (0, 0) := by
  intro l
  induction l with
  | nil =>
    intro g pw f0 hf hp r c
    exact hf r c
  | cons p ps ih =>
    intro g pw f0 hf hp r c
    simp only [List.foldl_cons]
    refine ih g pw _ ?_ (fun q hq => hp q (List.mem_cons_of_mem p hq)) r c
    intro r' c'
    rw [writeBlock, hp p (List.mem_cons_self p ps)]
    split
    · rfl
    · exact hf r' c'

/-- An overlay built from all-transparent all-black cells is identically
transparent black. -/
lemma buildOverlay_zero (g pw : Nat) (cells : List (ℤ × ℤ))
    (h : ∀ p ∈ cells, p = ((0:ℤ), (0:ℤ))) (r c : Nat) :
    buildOverlay g pw cells r c = (0, 0) := by
  unfold buildOverlay
  refine foldl_writeBlock_zero _ g pw _ (fun _ _ => rfl) ?_ r c
  intro p hp
  have hmem : p.2 ∈ cells := by
    have hsnd := List.enum_map_snd cells
    rw [← hsnd]
    exact List.mem_map_of_mem Prod.snd hp
  exact h p.2 hmem

/-- Compositing a zero-alpha zero-colour cell over a pixel leaves it
unchanged. -/
lemma compositePixel_zero (b : ℚ × ℚ × ℚ) :
    compositePixel b ((0:ℤ), (0:ℤ)) = b := by
  obtain ⟨b1, b2, b3⟩ := b
  simp [compositePixel]

/-- When every assertion passes, `add_highlights` composites the built
overlay over the image. -/
lemma add_highlights_eval (img : Image) (patches : List ℚ) (u : ℚ)
    (hne : patches.length ≠ 0)
    (hsq : Nat.sqrt patches.length * Nat.sqrt patches.length = patches.length)
    (hdiv : img.width / Nat.sqrt patches.length
      = img.height / Nat.sqrt patches.length)
    (heps : u + highlightEps ≠ 0) :
    add_highlights img patches (some u)
      = some (compositeOver img (buildOverlay (Nat.sqrt patches.length)
          (img.width / Nat.sqrt patches.length)
          (patches.map (fun v => cellOf (v / (u + highlightEps)))))) := by
  simp [add_highlights, hne, hsq, hdiv, heps]

/-- C10: calling the renderer with a non-empty patch vector but without an
upper normalization bound (the parameter's default) dies on the
`assert upper is not None` in the patch loop before producing any overlay,
even though the parameter is declared optional. -/
theorem missing_upper_bound_is_fatal (img : Image) (patches : List ℚ)
    (h : patches ≠ []) : add_highlights img patches none = none := by
  have hne : patches.length ≠ 0 := by simpa using h
  by_cases hsq : Nat.sqrt patches.length * Nat.sqrt patches.length = patches.length
  · by_cases hdiv : img.width / Nat.sqrt patches.length
        = img.height / Nat.sqrt patches.length
    · simp [add_highlights, hne, hsq, hdiv]
    · simp [add_highlights, hne, hsq, hdiv]
  · simp [add_highlights, hne, hsq]

/-- Witness for C10. -/
theorem missing_upper_bound_is_fatal_witness :
    ([ (1:ℚ) ] ≠ []) ∧ add_highlights ⟨3, 3, fun _ _ => (0, 0, 0)⟩ [(1:ℚ)] none = none :=
  ⟨by decide, missing_upper_bound_is_fatal ⟨3, 3, fun _ _ => (0, 0, 0)⟩ [(1:ℚ)] (by decide)⟩

/-- C7 counterexample: a 10×11 image with 4 patches.  The grid is 2×2 and
11 does not divide into 2 equal patches (the image does not divide evenly
into square patches), yet no assertion fires and the renderer returns an
image, because the code only checks `width // grid == height // grid`
(10 // 2 == 11 // 2 == 5). -/
lemma sqrt_four : Nat.sqrt 4 = 2 := by
  rw [show (4:Nat) = 2 ^ 2 by norm_num]
  exact Nat.sqrt_eq' 2

lemma sqrt_sixteen : Nat.sqrt 16 = 4 := by
  rw [show (16:Nat) = 4 ^ 2 by norm_num]
  exact Nat.sqrt_eq' 4

theorem highlight_nondividing_image_counterexample :
    ¬ ((2:Nat) ∣ 11)
      ∧ (add_highlights ⟨10, 11, fun _ _ => (0, 0, 0)⟩ [1, 1, 1, 1] (some 1)).isSome
        = true := by
  constructor
  · decide
  · have h := add_highlights_eval ⟨10, 11, fun _ _ => (0, 0, 0)⟩ [1, 1, 1, 1] 1
      (by decide)
      (by show Nat.sqrt 4 * Nat.sqrt 4 = 4; rw [sqrt_four])
      (by show (10:Nat) / Nat.sqrt 4 = 11 / Nat.sqrt 4; rw [sqrt_four])
      (by norm_num [highlightEps])
    rw [h]
    rfl

/-- C7 as amended: for non-empty patches the renderer's grid assertions
fail exactly when the patch count is not a perfect square or the
floor-divided patch side lengths differ (`width // grid ≠ height //
grid`); when both checks pass (and an upper bound with `upper + 1e-9 ≠ 0`
is supplied) an image is returned — even if the image does not divide
evenly into whole patches. -/
theorem highlight_grid_assertions_amended (img : Image) (patches : List ℚ)
    (u : ℚ) (hne : patches ≠ []) :
    ((Nat.sqrt patches.length * Nat.sqrt patches.length ≠ patches.length
        ∨ img.width / Nat.sqrt patches.length ≠ img.height / Nat.sqrt patches.length)
      → add_highlights img patches (some u) = none)
    ∧ (Nat.sqrt patches.length * Nat.sqrt patches.length = patches.length
      → img.width / Nat.sqrt patches.length = img.height / Nat.sqrt patches.length
      → u + highlightEps ≠ 0
      → (add_highlights img patches (some u)).isSome = true) := by
  have hne' : patches.length ≠ 0 := by simpa using hne
  constructor
  · intro hbad
    by_cases hsq : Nat.sqrt patches.length * Nat.sqrt patches.length = patches.length
    · rcases hbad with hbad | hbad
      · exact absurd hsq hbad
      · simp [add_highlights, hne', hsq, hbad]
    · simp [add_highlights, hne', hsq]
  · intro hsq hdiv heps
    simp [add_highlights, hne', hsq, hdiv, heps]

/-- Witness for C7's amended theorem, at the counterexample's input. -/
theorem highlight_grid_assertions_amended_witness :
    (([1, 1, 1, 1] : List ℚ) ≠ []
        ∧ Nat.sqrt ([1, 1, 1, 1] : List ℚ).length
            * Nat.sqrt ([1, 1, 1, 1] : List ℚ).length = ([1, 1, 1, 1] : List ℚ).length
        ∧ (10:Nat) / Nat.sqrt ([1, 1, 1, 1] : List ℚ).length
            = 11 / Nat.sqrt ([1, 1, 1, 1] : List ℚ).length
        ∧ (1:ℚ) + highlightEps ≠ 0)
      ∧ (add_highlights ⟨10, 11, fun _ _ => (1, 1, 1)⟩ [1, 1, 1, 1] (some 1)).isSome
        = true :=
  ⟨⟨by decide,
    by show Nat.sqrt 4 * Nat.sqrt 4 = 4; rw [sqrt_four],
    by show (10:Nat) / Nat.sqrt 4 = 11 / Nat.sqrt 4; rw [sqrt_four],
    by norm_num [highlightEps]⟩,
   (highlight_grid_assertions_amended ⟨10, 11, fun _ _ => (1, 1, 1)⟩ [1, 1, 1, 1] 1
     (by decide)).2
     (by show Nat.sqrt 4 * Nat.sqrt 4 = 4; rw [sqrt_four])
     (by show (10:Nat) / Nat.sqrt 4 = 11 / Nat.sqrt 4; rw [sqrt_four])
     (by norm_num [highlightEps])⟩

/-- C8: for a 4×4 patch grid and an all-zero activation vector, every
overlay cell has zero colour intensity and zero alpha, and the composited
output is pixel-identical to the original image. -/
theorem zero_activations_leave_image_unchanged (img : Image) (u : ℚ)
    (hdiv : img.width / 4 = img.height / 4) (hu : 0 ≤ u) :
    ∃ out : Image,
      add_highlights img (List.replicate 16 0) (some u) = some out
        ∧ (∀ r c, buildOverlay 4 (img.width / 4)
            ((List.replicate 16 (0:ℚ)).map
              (fun v => cellOf (v / (u + highlightEps)))) r c = (0, 0))
        ∧ ∀ r c, out.pix r c = img.pix r c := by
  have hepspos : (0:ℚ) < highlightEps := by norm_num [highlightEps]
  have heps : u + highlightEps ≠ 0 := by positivity
  have hcells : ∀ p ∈ (List.replicate 16 (0:ℚ)).map
      (fun v => cellOf (v / (u + highlightEps))), p = ((0:ℤ), (0:ℤ)) := by
    intro p hp
    obtain ⟨v, hv, rfl⟩ := List.mem_map.mp hp
    rw [List.eq_of_mem_replicate hv]
    simp [cellOf, pyInt]
  have hover : ∀ r c, buildOverlay 4 (img.width / 4)
      ((List.replicate 16 (0:ℚ)).map (fun v => cellOf (v / (u + highlightEps)))) r c
        = (0, 0) := buildOverlay_zero _ _ _ hcells
  have hs16 : Nat.sqrt (List.replicate 16 (0:ℚ)).length = 4 := by
    rw [List.length_replicate]
    exact sqrt_sixteen
  have h := add_highlights_eval img (List.replicate 16 0) u (by simp)
    (by rw [hs16, List.length_replicate]) (by rw [hs16]; exact hdiv) heps
  rw [hs16] at h
  refine ⟨compositeOver img (buildOverlay 4 (img.width / 4)
      ((List.replicate 16 (0:ℚ)).map (fun v => cellOf (v / (u + highlightEps))))),
    h, hover, ?_⟩
  intro r c
  show compositePixel (img.pix r c) _ = img.pix r c
  rw [hover r c]
  exact compositePixel_zero (img.pix r c)

/-- Witness for C8 on a concrete 8×8 image with a constant pixel value. -/
theorem zero_activations_leave_image_unchanged_witness :
    ((⟨8, 8, fun _ _ => ((1:ℚ), (1:ℚ), (1:ℚ))⟩ : Image).width / 4
        = (⟨8, 8, fun _ _ => ((1:ℚ), (1:ℚ), (1:ℚ))⟩ : Image).height / 4
      ∧ (0:ℚ) ≤ 1)
      ∧ ∃ out : Image,
        add_highlights ⟨8, 8, fun _ _ => ((1:ℚ), (1:ℚ), (1:ℚ))⟩
            (List.replicate 16 0) (some 1) = some out
          ∧ (∀ r c, buildOverlay 4
              ((⟨8, 8, fun _ _ => ((1:ℚ), (1:ℚ), (1:ℚ))⟩ : Image).width / 4)
              ((List.replicate 16 (0:ℚ)).map
                (fun v => cellOf (v / (1 + highlightEps)))) r c = (0, 0))
          ∧ ∀ r c, out.pix r c
              = (⟨8, 8, fun _ _ => ((1:ℚ), (1:ℚ), (1:ℚ))⟩ : Image).pix r c :=
  ⟨⟨rfl, by decide⟩,
   zero_activations_leave_image_unchanged ⟨8, 8, fun _ _ => ((1:ℚ), (1:ℚ), (1:ℚ))⟩ 1
     rfl (by decide)⟩

end SAEV
